import Mathlib

/-!
Verification of the Yahtzee rules engine (`yahtzee.py`, `main.py`).

The Python source is shallowly embedded: pure functions become Lean
functions on `Nat`/`List`/`String`; the interactive round controller
(`play_round`) is embedded by passing the die stream and the line-based
input stream explicitly, with `Option` marking runs whose input stream
is exhausted (in Python those would keep reprompting forever).
A scorecard (Python `dict[str, int | None]`) is an association list from
category name to `Option Nat`, preserving key order and dict-update
semantics.
-/

namespace Yahtzee

/-- `UPPER_CATEGORIES` from yahtzee.py. -/
def UPPER_CATEGORIES : List String := ["1", "2", "3", "4", "5", "6"]

/-- `LOWER_CATEGORIES` from yahtzee.py. -/
def LOWER_CATEGORIES : List String :=
  ["three_of_a_kind", "four_of_a_kind", "full_house", "four_straight",
   "five_straight", "yahtzee", "chance"]

/-- `ALL_CATEGORIES = UPPER_CATEGORIES + LOWER_CATEGORIES`. -/
def ALL_CATEGORIES : List String := UPPER_CATEGORIES ++ LOWER_CATEGORIES

/-- A scorecard: Python `dict[str, int | None]` with insertion order,
embedded as an association list; `none` is the "unused" sentinel. -/
abbrev Scorecard : Type := List (String × Option Nat)

/-- Python `card[k]` read access (missing key reads as unset). -/
def cardGet (card : Scorecard) (k : String) : Option Nat :=
  (List.lookup k card).getD none

/-- Python `card[k] = v` on a dict: replace the value if the key is
present (keeping its position), else append the new binding. -/
def dictSet (card : Scorecard) (k : String) (v : Option Nat) : Scorecard :=
  if List.any card (fun kv => decide (kv.1 = k)) then
    List.map (fun kv => if kv.1 = k then (kv.1, v) else kv) card
  else card ++ [(k, v)]

/-- `create_empty_scorecard` from yahtzee.py: every category mapped to
the sentinel `None`. -/
def create_empty_scorecard : Scorecard :=
  ALL_CATEGORIES.map (fun k => (k, none))

/-- `roll_dice(n)` from yahtzee.py: the random source is embedded as an
explicit stream of die outcomes; rolling consumes `n` outcomes. -/
def roll_dice (n : Nat) (ds : List Nat) : List Nat × List Nat :=
  (ds.take n, ds.drop n)

/-- The per-character loop of `_parse_keep_string`: accept `'1'`..`'6'`,
abort with `None` on any other character. -/
def parseDigitChars : List Char → Option (List Nat)
  | [] => some []
  | c :: cs =>
    if c ∈ ['1', '2', '3', '4', '5', '6'] then
      (parseDigitChars cs).map (fun ds => (c.toNat - '0'.toNat) :: ds)
    else none

/-- `_parse_keep_string(s)` from yahtzee.py: `None`/empty mean "keep
nothing"; all whitespace is removed; any character outside `'1'`..`'6'`
makes the whole input invalid (`none`). -/
def _parse_keep_string (s : Option String) : Option (List Nat) :=
  match s with
  | none => some []
  | some str =>
    if str = "" then some []
    else parseDigitChars (str.data.filter (fun c => !c.isWhitespace))

/-- The multiset-containment check of `select_keep` (yahtzee.py line
139): `all(want[v] <= pool[v] for v in want)` over the `Counter`s of the
requested dice and of the pool. -/
def is_feasible (requested pool : List Nat) : Bool :=
  requested.dedup.all (fun v => decide (requested.count v ≤ pool.count v))

/-- `select_keep(dice)` from yahtzee.py: read keep requests from the
input stream until one parses and is feasible; `none` if the stream is
exhausted (Python would reprompt forever). -/
def select_keep (dice : List Nat) : List String → Option (List Nat × List String)
  | [] => none
  | raw :: rest =>
    match _parse_keep_string (some raw) with
    | none => select_keep dice rest
    | some kept =>
      if is_feasible kept dice then some (kept, rest)
      else select_keep dice rest

/-- `reroll(dice, kept)` from yahtzee.py: clamp `kept` to the hand size,
roll `5 - len(kept)` fresh dice from the stream, and return the sorted
combined hand together with the remaining stream. -/
def reroll (dice kept : List Nat) (ds : List Nat) : List Nat × List Nat :=
  let kept2 := if kept.length > dice.length then kept.take dice.length else kept
  let need := 5 - kept2.length
  let r := roll_dice need ds
  (List.insertionSort (fun a b => a ≤ b) (kept2 ++ r.1), r.2)

/-- The scan of `has_straight` (yahtzee.py lines 209-221): arguments are
the previous value, the current run length, the longest run so far, and
the remaining (strictly increasing) values. -/
def straightScan : Nat → Nat → Nat → List Nat → Nat
  | _, _, longest, [] => longest
  | prev, run, longest, v :: rest =>
    if v = prev + 1 then straightScan v (run + 1) (max longest (run + 1)) rest
    else straightScan v 1 longest rest

/-- Accumulator-free recast of `straightScan` used in proofs: the
longest run in `prev :: l` that is constrained to start inside the
current run of length `run` ending at `prev`. -/
def scanCore : Nat → Nat → List Nat → Nat
  | _, run, [] => run
  | prev, run, v :: rest =>
    if v = prev + 1 then scanCore v (run + 1) rest
    else max run (scanCore v 1 rest)

/-- `has_straight(dice, length)` from yahtzee.py: deduplicate, sort
ascending, scan for the longest run of values increasing by exactly 1. -/
def has_straight (dice : List Nat) (length : Nat) : Bool :=
  match List.insertionSort (fun a b => a ≤ b) dice.dedup with
  | [] => false
  | v :: rest => decide (straightScan v 1 1 rest ≥ length)

/-- `evaluate(dice)` from yahtzee.py: the full score vector, as the dict
(association list) built there, in insertion order.  `counts.values()`
of the Python `Counter` is the list of counts of the distinct faces. -/
def evaluate (dice : List Nat) : List (String × Nat) :=
  let counts_values := dice.dedup.map (fun v => dice.count v)
  let total := dice.sum
  [("1", 1 * dice.count 1),
   ("2", 2 * dice.count 2),
   ("3", 3 * dice.count 3),
   ("4", 4 * dice.count 4),
   ("5", 5 * dice.count 5),
   ("6", 6 * dice.count 6),
   ("three_of_a_kind", if counts_values.any (fun c => decide (c ≥ 3)) then total else 0),
   ("four_of_a_kind", if counts_values.any (fun c => decide (c ≥ 4)) then total else 0),
   ("full_house",
     if List.insertionSort (fun a b => a ≥ b) counts_values = [3, 2] then 25 else 0),
   ("four_straight", if has_straight dice 4 then 30 else 0),
   ("five_straight", if has_straight dice 5 then 40 else 0),
   ("yahtzee", if counts_values.any (fun c => decide (c = 5)) then 50 else 0),
   ("chance", total)]

/-- `_upper_subtotal(card)` from yahtzee.py: sum the upper entries,
skipping `None`. -/
def _upper_subtotal (card : Scorecard) : Nat :=
  (UPPER_CATEGORIES.filterMap (fun k => cardGet card k)).sum

/-- `_lower_subtotal(card)` from yahtzee.py. -/
def _lower_subtotal (card : Scorecard) : Nat :=
  (LOWER_CATEGORIES.filterMap (fun k => cardGet card k)).sum

/-- `_bonus(upper_subtotal)` from yahtzee.py: 35 iff the subtotal
reaches 63. -/
def _bonus (upper_subtotal : Nat) : Nat :=
  if upper_subtotal ≥ 63 then 35 else 0

/-- The final tally of `main` (main.py lines 50-53):
`up + bonus(up) + low`. -/
def final_total (card : Scorecard) : Nat :=
  _upper_subtotal card + _bonus (_upper_subtotal card) + _lower_subtotal card

/-- Python `str.strip()`: remove leading and trailing whitespace. -/
def strTrim (s : String) : String :=
  ⟨((s.data.dropWhile Char.isWhitespace).reverse.dropWhile Char.isWhitespace).reverse⟩

/-- Python `str.lower()`: lowercase every character. -/
def strToLower (s : String) : String :=
  ⟨s.data.map Char.toLower⟩

/-- String-to-number conversion used by `choose` after its
`raw.isdigit()` check (`int(raw)`). -/
def strToNat (s : String) : Nat :=
  s.data.foldl (fun acc c => 10 * acc + (c.toNat - 48)) 0

/-- The validation loop of `choose` (yahtzee.py lines 417-434): read
inputs until one is all digits and in range, then return the selected
available category. -/
def choose_loop (avail : List String) : List String → Option (String × List String)
  | [] => none
  | raw :: rest =>
    let r := strTrim raw
    if r ≠ "" ∧ r.data.all Char.isDigit then
      let idx := strToNat r
      if 1 ≤ idx ∧ idx ≤ avail.length then some (avail.getD (idx - 1) "", rest)
      else choose_loop avail rest
    else choose_loop avail rest

/-- `choose(scores, used)` from yahtzee.py: menu of the categories not
yet used, in canonical order; `scores` is display-only. -/
def choose (scores : List (String × Nat)) (used : List String)
    (ins : List String) : Option (String × List String) :=
  choose_loop (ALL_CATEGORIES.filter (fun k => decide (k ∉ used))) ins

/-- The stop-decision loop of `play_round` (yahtzee.py lines 471-482):
strip and lowercase the answer, empty defaults to `"n"`, accept only
`"y"`/`"n"`, reprompt otherwise. -/
def stop_decision : List String → Option (Bool × List String)
  | [] => none
  | raw :: rest =>
    let a := strToLower (strTrim raw)
    let a2 := if a = "" then "n" else a
    if a2 = "y" then some (true, rest)
    else if a2 = "n" then some (false, rest)
    else stop_decision rest

/-- The `used` set derived in `play_round` (yahtzee.py line 499): keys
whose value is not `None`. -/
def usedKeys (card : Scorecard) : List String :=
  (card.filter (fun kv => kv.2.isSome)).map (fun kv => kv.1)

/-- `play_round(card)` from yahtzee.py, with the die stream and input
stream explicit.  Returns the updated card, the final hand, and the
remaining streams; `none` when an input stream runs dry inside one of
the reprompt loops.  Note the Python `for roll_no in (2, 3)` loop body
always breaks during its first iteration, so the round is the straight
line embedded here. -/
def play_round (card : Scorecard) (ds : List Nat) (ins : List String) :
    Option (Scorecard × List Nat × List Nat × List String) :=
  let r1 := roll_dice 5 ds
  let dice1 := List.insertionSort (fun a b => a ≤ b) r1.1
  match select_keep dice1 ins with
  | none => none
  | some (kept, ins1) =>
    let r2 := reroll dice1 kept r1.2
    match stop_decision ins1 with
    | none => none
    | some (ans, ins2) =>
      let fin := if ans then r2 else reroll r2.1 kept r2.2
      let scores_now := evaluate fin.1
      match choose scores_now (usedKeys card) ins2 with
      | none => none
      | some (choice, ins3) =>
        some (dictSet card choice (some ((List.lookup choice scores_now).getD 0)),
          fin.1, fin.2, ins3)

/-- The final hand (and remaining die stream) of a round in which the
stop offer is declined: the same `kept` multiset is applied to produce
roll #2 and then reapplied to produce roll #3 (yahtzee.py line 491). -/
def third_hand (ds kept : List Nat) : List Nat × List Nat :=
  let dice1 := List.insertionSort (fun a b => a ≤ b) (ds.take 5)
  let r2 := reroll dice1 kept (ds.drop 5)
  reroll r2.1 kept r2.2

instance : IsTotal Nat (fun a b : Nat => a ≥ b) := ⟨fun a b => le_total b a⟩

instance : IsTrans Nat (fun a b : Nat => a ≥ b) := ⟨fun _ _ _ h1 h2 => le_trans h2 h1⟩

instance : IsAntisymm Nat (fun a b : Nat => a ≥ b) := ⟨fun _ _ h1 h2 => le_antisymm h2 h1⟩

theorem lookup_three_of_a_kind (dice : List Nat) :
    List.lookup "three_of_a_kind" (evaluate dice) =
      some (if (dice.dedup.map (fun v => dice.count v)).any (fun c => decide (c ≥ 3))
        then dice.sum else 0) := rfl

theorem lookup_four_of_a_kind (dice : List Nat) :
    List.lookup "four_of_a_kind" (evaluate dice) =
      some (if (dice.dedup.map (fun v => dice.count v)).any (fun c => decide (c ≥ 4))
        then dice.sum else 0) := rfl

theorem lookup_full_house (dice : List Nat) :
    List.lookup "full_house" (evaluate dice) =
      some (if List.insertionSort (fun a b => a ≥ b) (dice.dedup.map (fun v => dice.count v)) = [3, 2]
        then 25 else 0) := rfl

theorem lookup_four_straight (dice : List Nat) :
    List.lookup "four_straight" (evaluate dice) =
      some (if has_straight dice 4 then 30 else 0) := rfl

theorem lookup_five_straight (dice : List Nat) :
    List.lookup "five_straight" (evaluate dice) =
      some (if has_straight dice 5 then 40 else 0) := rfl

theorem lookup_yahtzee (dice : List Nat) :
    List.lookup "yahtzee" (evaluate dice) =
      some (if (dice.dedup.map (fun v => dice.count v)).any (fun c => decide (c = 5))
        then 50 else 0) := rfl

theorem lookup_chance (dice : List Nat) :
    List.lookup "chance" (evaluate dice) = some dice.sum := rfl

theorem is_feasible_iff (requested pool : List Nat) :
    is_feasible requested pool = true ↔
      ∀ v, requested.count v ≤ pool.count v := by
  unfold is_feasible
  rw [List.all_eq_true]
  constructor
  · intro h v
    by_cases hv : v ∈ requested
    · simpa using h v (List.mem_dedup.mpr hv)
    · simp [List.count_eq_zero.mpr hv]
  · intro h v _
    simpa using h v

theorem parseDigitChars_eq (l : List Char) :
    parseDigitChars l =
      if l.all (fun c => decide (c ∈ ['1', '2', '3', '4', '5', '6'])) then
        some (l.map (fun c => c.toNat - '0'.toNat))
      else none := by
  induction l with
  | nil => rfl
  | cons c cs ih =>
    simp only [parseDigitChars, List.all_cons]
    by_cases hc : c ∈ ['1', '2', '3', '4', '5', '6']
    · rw [ih]
      by_cases hall : cs.all (fun c => decide (c ∈ ['1', '2', '3', '4', '5', '6']))
      · simp [hc, hall]
      · simp [hc, hall]
    · simp [hc]

theorem sum_filterMap_getD (l : List String) (f : String → Option Nat) :
    (l.filterMap f).sum = (l.map (fun k => (f k).getD 0)).sum := by
  induction l with
  | nil => rfl
  | cons k t ih =>
    cases hf : f k <;> simp [List.filterMap_cons, hf, ih]

theorem scanCore_ge_run : ∀ (l : List Nat) (prev run : Nat), run ≤ scanCore prev run l := by
  intro l
  induction l with
  | nil => intro prev run; simp [scanCore]
  | cons v rest ih =>
    intro prev run
    simp only [scanCore]
    split
    · exact le_trans (Nat.le_succ run) (ih v (run + 1))
    · exact Nat.le_max_left _ _

theorem straightScan_eq : ∀ (l : List Nat) (prev run longest : Nat),
    1 ≤ run → run ≤ longest →
    straightScan prev run longest l = max longest (scanCore prev run l) := by
  intro l
  induction l with
  | nil =>
    intro prev run longest _ h2
    simp [straightScan, scanCore, Nat.max_eq_left h2]
  | cons v rest ih =>
    intro prev run longest h1 h2
    simp only [straightScan, scanCore]
    split
    · rw [ih v (run + 1) (max longest (run + 1)) (by omega) (Nat.le_max_right _ _)]
      have hge : run + 1 ≤ scanCore v (run + 1) rest := scanCore_ge_run rest v (run + 1)
      rw [Nat.max_assoc, Nat.max_eq_right hge]
    · rw [ih v 1 longest (le_refl 1) (le_trans h1 h2)]
      rw [← Nat.max_assoc, Nat.max_eq_left h2]

theorem has_straight_eq (dice : List Nat) (n : Nat) :
    has_straight dice n =
      (match List.insertionSort (fun a b => a ≤ b) dice.dedup with
       | [] => false
       | v :: rest => decide (scanCore v 1 rest ≥ n)) := by
  unfold has_straight
  cases h : List.insertionSort (fun a b => a ≤ b) dice.dedup with
  | nil => rfl
  | cons v rest =>
    have heq : straightScan v 1 1 rest = scanCore v 1 rest := by
      rw [straightScan_eq rest v 1 1 (le_refl 1) (le_refl 1)]
      exact Nat.max_eq_right (scanCore_ge_run rest v 1)
    simp only [heq]

theorem sortedVals_sorted_lt (dice : List Nat) :
    List.Sorted (· < ·) (List.insertionSort (fun a b => a ≤ b) dice.dedup) := by
  have hs : List.Sorted (fun a b : Nat => a ≤ b)
      (List.insertionSort (fun a b => a ≤ b) dice.dedup) :=
    List.sorted_insertionSort _ _
  have hnd : (List.insertionSort (fun a b => a ≤ b) dice.dedup).Nodup :=
    ((List.perm_insertionSort _ _).nodup_iff).mpr (List.nodup_dedup dice)
  exact List.Sorted.lt_of_le hs hnd

theorem mem_sortedVals (dice : List Nat) (x : Nat) :
    x ∈ List.insertionSort (fun a b => a ≤ b) dice.dedup ↔ x ∈ dice := by
  rw [(List.perm_insertionSort _ _).mem_iff, List.mem_dedup]

theorem scanCore_sound (dice : List Nat) :
    ∀ (l : List Nat) (prev run n : Nat),
      (∀ x ∈ l, x ∈ dice) →
      (∃ a, a + run = prev + 1 ∧ ∀ i < run, (a + i) ∈ dice) →
      n ≤ scanCore prev run l →
      ∃ b, ∀ i < n, (b + i) ∈ dice := by
  intro l
  induction l with
  | nil =>
    intro prev run n _ hchain hn
    simp only [scanCore] at hn
    obtain ⟨a, _, hmem⟩ := hchain
    refine ⟨a + (run - n), fun i hi => ?_⟩
    have heq : a + (run - n) + i = a + (run - n + i) := by omega
    rw [heq]
    exact hmem (run - n + i) (by omega)
  | cons v rest ih =>
    intro prev run n hl hchain hn
    have hv : v ∈ dice := hl v (List.mem_cons_self v rest)
    have hl' : ∀ x ∈ rest, x ∈ dice := fun x hx => hl x (List.mem_cons_of_mem v hx)
    simp only [scanCore] at hn
    split at hn
    next hveq =>
      obtain ⟨a, ha, hmem⟩ := hchain
      refine ih v (run + 1) n hl' ⟨a, by omega, fun i hi => ?_⟩ hn
      by_cases hir : i < run
      · exact hmem i hir
      · have hieq : i = run := by omega
        subst hieq
        have hav : a + i = v := by omega
        rw [hav]
        exact hv
    next hvne =>
      rcases le_max_iff.mp hn with hrun | hrest
      · obtain ⟨a, _, hmem⟩ := hchain
        refine ⟨a + (run - n), fun i hi => ?_⟩
        have heq : a + (run - n) + i = a + (run - n + i) := by omega
        rw [heq]
        exact hmem (run - n + i) (by omega)
      · refine ih v 1 n hl' ⟨v, by omega, fun i hi => ?_⟩ hrest
        have hieq : i = 0 := by omega
        subst hieq
        simpa using hv

theorem scanCore_complete :
    ∀ (l : List Nat) (prev run a n : Nat),
      List.Sorted (· < ·) (prev :: l) →
      ((prev < a ∧ ∀ i < n, (a + i) ∈ l) ∨
       (a ≤ prev ∧ prev < a + n ∧ prev + 1 ≤ a + run ∧
         ∀ i < n, prev < a + i → (a + i) ∈ l)) →
      n ≤ scanCore prev run l := by
  intro l
  induction l with
  | nil =>
    intro prev run a n _ h
    simp only [scanCore]
    rcases h with ⟨_, hmem⟩ | ⟨h1, h2, h3, hmem⟩
    · rcases Nat.eq_zero_or_pos n with hn | hn
      · omega
      · exact absurd (hmem 0 hn) (List.not_mem_nil _)
    · rcases Nat.eq_zero_or_pos n with hn | hn
      · omega
      · by_cases hlt : prev < a + (n - 1)
        · exact absurd (hmem (n - 1) (by omega) hlt) (List.not_mem_nil _)
        · omega
  | cons v rest ih =>
    intro prev run a n hsorted h
    have hpv : prev < v := (List.sorted_cons.mp hsorted).1 v (List.mem_cons_self _ _)
    have hsv : List.Sorted (· < ·) (v :: rest) := (List.sorted_cons.mp hsorted).2
    have hvmin : ∀ x ∈ rest, v < x := (List.sorted_cons.mp hsv).1
    simp only [scanCore]
    split
    next hveq =>
      rcases h with ⟨hpa, hmem⟩ | ⟨h1, h2, h3, hmem⟩
      · rcases Nat.eq_zero_or_pos n with hn | hn
        · subst hn; exact Nat.zero_le _
        · have ha0 : a + 0 ∈ v :: rest := hmem 0 hn
          rcases List.mem_cons.mp ha0 with hav | har
          · refine ih v (run + 1) a n hsv (Or.inr ⟨by omega, by omega, by omega, ?_⟩)
            intro i hi hlt
            rcases List.mem_cons.mp (hmem i hi) with h' | h'
            · omega
            · exact h'
          · have hva : v < a := by have := hvmin _ har; omega
            refine ih v (run + 1) a n hsv (Or.inl ⟨hva, ?_⟩)
            intro i hi
            rcases List.mem_cons.mp (hmem i hi) with h' | h'
            · omega
            · exact h'
      · by_cases hfar : prev + 1 < a + n
        · refine ih v (run + 1) a n hsv (Or.inr ⟨by omega, by omega, by omega, ?_⟩)
          intro i hi hlt
          rcases List.mem_cons.mp (hmem i hi (by omega)) with h' | h'
          · omega
          · exact h'
        · exact le_trans (by omega : n ≤ run + 1) (scanCore_ge_run rest v (run + 1))
    next hvne =>
      rcases h with ⟨hpa, hmem⟩ | ⟨h1, h2, h3, hmem⟩
      · rcases Nat.eq_zero_or_pos n with hn | hn
        · subst hn; exact Nat.zero_le _
        · have ha0 : a + 0 ∈ v :: rest := hmem 0 hn
          refine le_max_of_le_right ?_
          rcases List.mem_cons.mp ha0 with hav | har
          · refine ih v 1 a n hsv (Or.inr ⟨by omega, by omega, by omega, ?_⟩)
            intro i hi hlt
            rcases List.mem_cons.mp (hmem i hi) with h' | h'
            · omega
            · exact h'
          · have hva : v < a := by have := hvmin _ har; omega
            refine ih v 1 a n hsv (Or.inl ⟨hva, fun i hi => ?_⟩)
            rcases List.mem_cons.mp (hmem i hi) with h' | h'
            · omega
            · exact h'
      · by_cases hfar : prev + 1 < a + n
        · exfalso
          have hmm := hmem (prev + 1 - a) (by omega) (by omega)
          have heq : a + (prev + 1 - a) = prev + 1 := by omega
          rw [heq] at hmm
          rcases List.mem_cons.mp hmm with h' | h'
          · omega
          · have := hvmin _ h'
            omega
        · exact le_max_of_le_left (by omega)

theorem has_straight_iff (dice : List Nat) (n : Nat) (hn : 0 < n) :
    has_straight dice n = true ↔ ∃ a, ∀ i < n, (a + i) ∈ dice := by
  have hmem : ∀ x, x ∈ List.insertionSort (fun a b => a ≤ b) dice.dedup ↔ x ∈ dice :=
    fun x => mem_sortedVals dice x
  have hsort := sortedVals_sorted_lt dice
  rw [has_straight_eq]
  cases hvals : List.insertionSort (fun a b => a ≤ b) dice.dedup with
  | nil =>
    constructor
    · intro h; exact absurd h (by simp)
    · rintro ⟨a, ha⟩
      have h0 : a + 0 ∈ dice := ha 0 hn
      have h1 := (hmem (a + 0)).mpr h0
      rw [hvals] at h1
      exact absurd h1 (List.not_mem_nil _)
  | cons v rest =>
    rw [hvals] at hmem hsort
    rw [show (match v :: rest with
       | [] => false
       | v :: rest => decide (scanCore v 1 rest ≥ n)) = decide (scanCore v 1 rest ≥ n) from rfl]
    rw [decide_eq_true_eq]
    constructor
    · intro hscan
      exact scanCore_sound dice rest v 1 n
        (fun x hx => (hmem x).mp (List.mem_cons_of_mem v hx))
        ⟨v, by omega, fun i hi => by
          have hieq : i = 0 := by omega
          subst hieq
          simpa using (hmem v).mp (List.mem_cons_self v rest)⟩
        hscan
    · rintro ⟨a, ha⟩
      have hamem : a + 0 ∈ v :: rest := (hmem (a + 0)).mpr (ha 0 hn)
      rcases List.mem_cons.mp hamem with hav | har
      · refine scanCore_complete rest v 1 a n hsort
          (Or.inr ⟨by omega, by omega, by omega, fun i hi hlt => ?_⟩)
        rcases List.mem_cons.mp ((hmem (a + i)).mpr (ha i hi)) with h' | h'
        · omega
        · exact h'
      · have hva : v < a := by
          have := (List.sorted_cons.mp hsort).1 _ har
          omega
        refine scanCore_complete rest v 1 a n hsort
          (Or.inl ⟨hva, fun i hi => ?_⟩)
        rcases List.mem_cons.mp ((hmem (a + i)).mpr (ha i hi)) with h' | h'
        · omega
        · exact h'

theorem has_straight_mono (dice : List Nat) (m n : Nat) (hmn : m ≤ n)
    (h : has_straight dice n = true) : has_straight dice m = true := by
  rw [has_straight_eq] at h ⊢
  cases hv : List.insertionSort (fun a b => a ≤ b) dice.dedup with
  | nil => rw [hv] at h; exact absurd h (by simp)
  | cons v rest =>
    rw [hv] at h
    have hs := of_decide_eq_true h
    exact decide_eq_true (by omega)

theorem lookup_eq_of_mem_nodupkeys (k : String) (v : Option Nat) :
    ∀ (l : Scorecard), (l.map Prod.fst).Nodup → (k, v) ∈ l → List.lookup k l = some v := by
  intro l
  induction l with
  | nil => intro _ h; cases h
  | cons kv t ih =>
    obtain ⟨k1, v1⟩ := kv
    intro hnd hmem
    simp only [List.map_cons] at hnd
    rcases List.nodup_cons.mp hnd with ⟨hnotin, hnd'⟩
    rcases List.mem_cons.mp hmem with heq | ht
    · rw [← heq]
      simp [List.lookup]
    · have hk : k ≠ k1 := by
        intro hkk
        exact hnotin (hkk ▸ List.mem_map.mpr ⟨(k, v), ht, rfl⟩)
      have hb : (k == k1) = false := beq_eq_false_iff_ne.mpr hk
      simp only [List.lookup, hb]
      exact ih hnd' ht

theorem dictSet_eq_map (card : Scorecard) (k : String) (v : Option Nat)
    (h : k ∈ card.map Prod.fst) :
    dictSet card k v = List.map (fun kv => if kv.1 = k then (kv.1, v) else kv) card := by
  unfold dictSet
  rw [if_pos]
  rw [List.any_eq_true]
  rcases List.mem_map.mp h with ⟨kv, hkv, hfst⟩
  exact ⟨kv, hkv, decide_eq_true hfst⟩

theorem dictSet_map_fst (card : Scorecard) (k : String) (v : Option Nat)
    (h : k ∈ card.map Prod.fst) :
    (dictSet card k v).map Prod.fst = card.map Prod.fst := by
  rw [dictSet_eq_map card k v h, List.map_map]
  apply List.map_congr_left
  intro kv _
  simp only [Function.comp_apply]
  by_cases hk : kv.1 = k
  · rw [if_pos hk, hk]
  · rw [if_neg hk]

theorem lookup_map_update_self : ∀ (l : Scorecard) (k : String) (v : Option Nat),
    (l.map Prod.fst).Nodup → k ∈ l.map Prod.fst →
    List.lookup k (List.map (fun kv => if kv.1 = k then (kv.1, v) else kv) l) = some v := by
  intro l
  induction l with
  | nil => intro k v _ h; cases h
  | cons kv t ih =>
    obtain ⟨k1, v1⟩ := kv
    intro k v hnd hk
    simp only [List.map_cons] at hnd hk ⊢
    rcases List.nodup_cons.mp hnd with ⟨_, hnd'⟩
    by_cases h1 : k1 = k
    · subst h1
      rw [if_pos rfl]
      simp [List.lookup]
    · rw [if_neg h1]
      have hb2 : (k == k1) = false := beq_eq_false_iff_ne.mpr (Ne.symm h1)
      simp only [List.lookup, hb2]
      rcases List.mem_cons.mp hk with hkk | hkt
      · exact absurd hkk (Ne.symm h1)
      · exact ih k v hnd' hkt

theorem lookup_map_update_other : ∀ (l : Scorecard) (k j : String) (v : Option Nat),
    j ≠ k →
    List.lookup j (List.map (fun kv => if kv.1 = k then (kv.1, v) else kv) l) =
      List.lookup j l := by
  intro l
  induction l with
  | nil => intro _ _ _ _; rfl
  | cons kv t ih =>
    obtain ⟨k1, v1⟩ := kv
    intro k j v hjk
    simp only [List.map_cons]
    by_cases h1 : k1 = k
    · rw [if_pos h1]
      have hb : (j == k1) = false := beq_eq_false_iff_ne.mpr (h1 ▸ hjk)
      simp only [List.lookup, hb]
      exact ih k j v hjk
    · rw [if_neg h1]
      by_cases hj1 : j = k1
      · have hb : (j == k1) = true := beq_iff_eq.mpr hj1
        simp only [List.lookup, hb]
      · have hb : (j == k1) = false := beq_eq_false_iff_ne.mpr hj1
        simp only [List.lookup, hb]
        exact ih k j v hjk

theorem mem_keys_exists (card : Scorecard) (k : String) (h : k ∈ card.map Prod.fst) :
    ∃ o, (k, o) ∈ card := by
  rcases List.mem_map.mp h with ⟨kv, hkv, hfst⟩
  refine ⟨kv.2, ?_⟩
  rw [← hfst, Prod.mk.eta]
  exact hkv

theorem not_mem_usedKeys (card : Scorecard) (k : String) (h : k ∉ usedKeys card) :
    ∀ o, (k, o) ∈ card → o = none := by
  intro o ho
  cases o with
  | none => rfl
  | some v =>
    exfalso
    apply h
    unfold usedKeys
    exact List.mem_map.mpr ⟨(k, some v), List.mem_filter.mpr ⟨ho, rfl⟩, rfl⟩

theorem choose_loop_mem : ∀ (ins avail : List String) (c : String) (rest : List String),
    choose_loop avail ins = some (c, rest) → c ∈ avail := by
  intro ins
  induction ins with
  | nil => intro avail c rest h; cases h
  | cons raw t ih =>
    intro avail c rest h
    simp only [choose_loop] at h
    split at h
    · split at h
      next hrange =>
        simp only [Option.some.injEq, Prod.mk.injEq] at h
        obtain ⟨rfl, rfl⟩ := h
        have hlt : strToNat (strTrim raw) - 1 < avail.length := by omega
        rw [List.getD_eq_getElem?_getD, List.getElem?_eq_getElem hlt, Option.getD_some]
        exact List.getElem_mem hlt
      next => exact ih avail c rest h
    · exact ih avail c rest h

theorem play_round_some (card : Scorecard) (ds : List Nat) (ins : List String)
    (res : Scorecard × List Nat × List Nat × List String)
    (h : play_round card ds ins = some res) :
    ∃ choice score, choice ∈ ALL_CATEGORIES ∧ choice ∉ usedKeys card ∧
      res.1 = dictSet card choice (some score) := by
  simp only [play_round] at h
  split at h
  · cases h
  next kept ins1 hsk =>
    split at h
    · cases h
    next ans ins2 hsd =>
      split at h
      · cases h
      next choice ins3 hch =>
        have hmemf := choose_loop_mem ins2 _ choice ins3 hch
        rcases List.mem_filter.mp hmemf with ⟨hall, hdec⟩
        have hused : choice ∉ usedKeys card := of_decide_eq_true hdec
        simp only [Option.some.injEq] at h
        subst h
        exact ⟨choice, _, hall, hused, rfl⟩

theorem full_house_counts_iff (dice : List Nat) (h5 : dice.length = 5) :
    List.insertionSort (fun a b => a ≥ b) (dice.dedup.map (fun v => dice.count v)) = [3, 2] ↔
      ∃ a b, a ≠ b ∧ dice.count a = 3 ∧ dice.count b = 2 := by
  constructor
  · intro hsort
    have hperm : List.Perm (dice.dedup.map (fun v => dice.count v)) [3, 2] := by
      have hp := List.perm_insertionSort (fun a b : Nat => a ≥ b)
        (dice.dedup.map (fun v => dice.count v))
      rw [hsort] at hp
      exact hp.symm
    have hlen : dice.dedup.length = 2 := by
      have hl := hperm.length_eq
      simpa using hl
    obtain ⟨x, y, hxy⟩ := List.length_eq_two.mp hlen
    rw [hxy] at hperm
    simp only [List.map_cons, List.map_nil] at hperm
    have hxyne : x ≠ y := by
      have hnd := List.nodup_dedup dice
      rw [hxy] at hnd
      have hx := (List.nodup_cons.mp hnd).1
      simpa using hx
    have hc3 := hperm.count_eq 3
    have hc2 := hperm.count_eq 2
    simp only [List.count_cons, List.count_nil, beq_iff_eq] at hc3 hc2
    by_cases hx3 : dice.count x = 3
    · refine ⟨x, y, hxyne, hx3, ?_⟩
      split_ifs at hc3 hc2 <;> omega
    · refine ⟨y, x, hxyne.symm, ?_, ?_⟩ <;> (split_ifs at hc3 hc2 <;> omega)
  · rintro ⟨a, b, hab, ha, hb⟩
    have hle : (Multiset.replicate 3 a + Multiset.replicate 2 b) ≤ (dice : Multiset Nat) := by
      rw [Multiset.le_iff_count]
      intro x
      rw [Multiset.count_add, Multiset.count_replicate, Multiset.count_replicate,
        Multiset.coe_count]
      by_cases hxa : a = x
      · subst hxa
        rw [if_pos rfl, if_neg (fun h => hab h.symm)]
        omega
      · by_cases hxb : b = x
        · subst hxb
          rw [if_neg hxa, if_pos rfl]
          omega
        · rw [if_neg hxa, if_neg hxb]
          exact Nat.zero_le _
    have heqm : (Multiset.replicate 3 a + Multiset.replicate 2 b) = (dice : Multiset Nat) :=
      Multiset.eq_of_le_of_card_le hle (by simp [Multiset.coe_card, h5])
    have hamem : a ∈ dice := List.count_pos_iff.mp (by omega)
    have hbmem : b ∈ dice := List.count_pos_iff.mp (by omega)
    have hmemab : ∀ x ∈ dice, x = a ∨ x = b := by
      intro x hx
      have hxm : x ∈ (dice : Multiset Nat) := by simpa using hx
      rw [← heqm] at hxm
      rcases Multiset.mem_add.mp hxm with hxm | hxm
      · exact Or.inl (Multiset.mem_replicate.mp hxm).2
      · exact Or.inr (Multiset.mem_replicate.mp hxm).2
    have hd : List.Perm dice.dedup [a, b] := by
      rw [List.perm_iff_count]
      intro x
      rw [List.count_dedup]
      by_cases hxa : x = a
      · subst hxa
        rw [if_pos hamem]
        simp [List.count_cons, hab]
      · by_cases hxb : x = b
        · subst hxb
          rw [if_pos hbmem]
          simp [List.count_cons, hxa]
        · have hxd : x ∉ dice := by
            intro hxd
            rcases hmemab x hxd with h1 | h1
            · exact hxa h1
            · exact hxb h1
          rw [if_neg hxd]
          simp [List.count_cons, hxa, hxb]
    have hmapped : List.Perm (dice.dedup.map (fun v => dice.count v)) [3, 2] := by
      have hm := hd.map (fun v => dice.count v)
      simpa [ha, hb] using hm
    exact List.eq_of_perm_of_sorted
      ((List.perm_insertionSort _ _).trans hmapped)
      (List.sorted_insertionSort _ _) (by decide)

/-- C1: counterexample — the commit step of the round (yahtzee.py line
506, `card[choice] = scores_now[choice]`, embedded as `dictSet`) applied
to a category that already holds a committed value silently overwrites
it (3 becomes 5) and returns a normal scorecard; nothing signals. -/
theorem commit_overwrite_counterexample :
    cardGet (dictSet create_empty_scorecard "1" (some 3)) "1" = some 3 ∧
    cardGet (dictSet (dictSet create_empty_scorecard "1" (some 3)) "1" (some 5)) "1" = some 5 ∧
    some (5 : Nat) ≠ some 3 :=
  ⟨by decide, by decide, by decide⟩

/-- C1 (amended): the raw commit assignment silently overwrites rather
than signalling, but `play_round` never performs it on a committed
category: every committed entry of the scorecard survives a completed
round unchanged, because `choose` only ever returns an unused
category. -/
theorem play_round_preserves_committed
    (card card' : Scorecard) (ds : List Nat) (ins : List String)
    (d rest : List Nat) (ins2 : List String)
    (hkeys : card.map Prod.fst = ALL_CATEGORIES)
    (h : play_round card ds ins = some (card', d, rest, ins2)) :
    ∀ k v, cardGet card k = some v → cardGet card' k = some v := by
  obtain ⟨choice, score, hall, hused, hres⟩ := play_round_some card ds ins _ h
  have hcard2 : card' = dictSet card choice (some score) := hres
  have hnd : (card.map Prod.fst).Nodup := by rw [hkeys]; decide
  have hkmem : choice ∈ card.map Prod.fst := by rw [hkeys]; exact hall
  intro k v hk
  have hkne : k ≠ choice := by
    intro he
    subst he
    obtain ⟨o, ho⟩ := mem_keys_exists card k hkmem
    have hono : o = none := not_mem_usedKeys card k hused o ho
    subst hono
    unfold cardGet at hk
    rw [lookup_eq_of_mem_nodupkeys k none card hnd ho] at hk
    simp at hk
  unfold cardGet at hk ⊢
  rw [hcard2, dictSet_eq_map card choice (some score) hkmem,
    lookup_map_update_other card choice k (some score) hkne]
  exact hk

/-- C1 witness: a concrete completed round on a card whose category "1"
is already committed to 3; the value 3 survives. -/
theorem play_round_preserves_committed_witness :
    cardGet (dictSet (dictSet create_empty_scorecard "1" (some 3)) "2" (some 10)) "1" =
      some 3 :=
  play_round_preserves_committed
    (dictSet create_empty_scorecard "1" (some 3))
    (dictSet (dictSet create_empty_scorecard "1" (some 3)) "2" (some 10))
    [1, 1, 1, 1, 1, 2, 2, 2, 2, 2] ["", "y", "1"] [2, 2, 2, 2, 2] [] []
    (by decide) (by decide) "1" 3 (by decide)

/-- C2: counterexample — on the hand [6,6,6,6,6] the code scores
three_of_a_kind = 30 and four_of_a_kind = 30 (some face count is ≥ 3
and ≥ 4, so both score the dice sum), not 0 as the claim states. -/
theorem yahtzee_hand_kinds_counterexample :
    List.lookup "three_of_a_kind" (evaluate [6, 6, 6, 6, 6]) = some 30 ∧
    List.lookup "four_of_a_kind" (evaluate [6, 6, 6, 6, 6]) = some 30 ∧
    List.lookup "three_of_a_kind" (evaluate [6, 6, 6, 6, 6]) ≠ some 0 :=
  ⟨by decide, by decide, by decide⟩

/-- C2 (amended): the full score vector of [6,6,6,6,6] — yahtzee 50,
"6" 30, chance 30, three_of_a_kind 30, four_of_a_kind 30, every other
category 0 — and, for every hand, yahtzee scores 50 iff some face has
count exactly 5. -/
theorem yahtzee_scoring_amended :
    evaluate [6, 6, 6, 6, 6] =
      [("1", 0), ("2", 0), ("3", 0), ("4", 0), ("5", 0), ("6", 30),
       ("three_of_a_kind", 30), ("four_of_a_kind", 30), ("full_house", 0),
       ("four_straight", 0), ("five_straight", 0), ("yahtzee", 50), ("chance", 30)] ∧
    ∀ dice : List Nat,
      (List.lookup "yahtzee" (evaluate dice) = some 50 ↔ ∃ v, dice.count v = 5) := by
  refine ⟨by decide, fun dice => ?_⟩
  rw [lookup_yahtzee]
  constructor
  · intro h
    simp only [Option.some.injEq] at h
    by_cases hc : (dice.dedup.map fun v => dice.count v).any (fun c => decide (c = 5)) = true
    · rcases List.any_eq_true.mp hc with ⟨c, hcmem, hc5⟩
      rcases List.mem_map.mp hcmem with ⟨v, _, hvc⟩
      exact ⟨v, by rw [hvc]; exact of_decide_eq_true hc5⟩
    · rw [if_neg hc] at h
      simp at h
  · rintro ⟨v, hv⟩
    have hvmem : v ∈ dice := List.count_pos_iff.mp (by omega)
    have hany : (dice.dedup.map fun v => dice.count v).any (fun c => decide (c = 5)) = true :=
      List.any_eq_true.mpr ⟨dice.count v,
        List.mem_map.mpr ⟨v, List.mem_dedup.mpr hvmem, rfl⟩, decide_eq_true hv⟩
    rw [if_pos hany]

/-- C3: full_house scores 25 exactly when the descending-sorted list of
face counts equals [3, 2]; equivalently, for 5-die hands, when some
face occurs exactly 3 times and a different face exactly 2 times; a
five-of-a-kind hand (counts [5]) scores 0, as do four-plus-one hands. -/
theorem full_house_exact_counts :
    (∀ dice : List Nat,
      (List.lookup "full_house" (evaluate dice) = some 25 ↔
        List.insertionSort (fun a b => a ≥ b) (dice.dedup.map (fun v => dice.count v)) =
          [3, 2])) ∧
    (∀ dice : List Nat, dice.length = 5 →
      (List.lookup "full_house" (evaluate dice) = some 25 ↔
        ∃ a b, a ≠ b ∧ dice.count a = 3 ∧ dice.count b = 2)) ∧
    List.lookup "full_house" (evaluate [1, 1, 1, 1, 1]) = some 0 ∧
    List.lookup "full_house" (evaluate [2, 2, 2, 5, 5]) = some 25 ∧
    List.lookup "full_house" (evaluate [2, 2, 2, 2, 5]) = some 0 := by
  have hpart : ∀ dice : List Nat,
      (List.lookup "full_house" (evaluate dice) = some 25 ↔
        List.insertionSort (fun a b => a ≥ b) (dice.dedup.map (fun v => dice.count v)) =
          [3, 2]) := by
    intro dice
    rw [lookup_full_house]
    by_cases hc : List.insertionSort (fun a b => a ≥ b)
        (dice.dedup.map (fun v => dice.count v)) = [3, 2]
    · simp [hc]
    · simp [hc]
  refine ⟨hpart, fun dice h5 => ?_, by decide, by decide, by decide⟩
  rw [hpart dice]
  exact full_house_counts_iff dice h5

/-- C3 witness: [2,2,2,5,5] is a full house, so two distinct faces with
counts 3 and 2 exist. -/
theorem full_house_exact_counts_witness :
    ∃ a b, a ≠ b ∧ List.count a [2, 2, 2, 5, 5] = 3 ∧ List.count b [2, 2, 2, 5, 5] = 2 :=
  (full_house_exact_counts.2.1 [2, 2, 2, 5, 5] (by decide)).mp (by decide)

/-- C4: four_straight scores 30 iff four consecutive values are all
present in the hand, and five_straight scores 40 iff five consecutive
values are present (the scan over the deduplicated sorted values finds
a run of that length); [1,2,3,4,5] scores both 30 and 40 simultaneously,
[1,1,3,4,5] scores 0 in both. -/
theorem straight_scores_spec :
    (∀ dice : List Nat,
      (List.lookup "four_straight" (evaluate dice) = some 30 ↔
        ∃ a, ∀ i < 4, (a + i) ∈ dice) ∧
      (List.lookup "five_straight" (evaluate dice) = some 40 ↔
        ∃ a, ∀ i < 5, (a + i) ∈ dice)) ∧
    List.lookup "four_straight" (evaluate [1, 2, 3, 4, 5]) = some 30 ∧
    List.lookup "five_straight" (evaluate [1, 2, 3, 4, 5]) = some 40 ∧
    List.lookup "four_straight" (evaluate [1, 1, 3, 4, 5]) = some 0 ∧
    List.lookup "five_straight" (evaluate [1, 1, 3, 4, 5]) = some 0 := by
  refine ⟨fun dice => ⟨?_, ?_⟩, by decide, by decide, by decide, by decide⟩
  · rw [lookup_four_straight, ← has_straight_iff dice 4 (by omega)]
    by_cases hc : has_straight dice 4 = true
    · simp [hc]
    · simp [hc]
  · rw [lookup_five_straight, ← has_straight_iff dice 5 (by omega)]
    by_cases hc : has_straight dice 5 = true
    · simp [hc]
    · simp [hc]

/-- C4 witness: from the 30 scored by [1,2,3,4,5], four consecutive
present values are recovered. -/
theorem straight_scores_spec_witness :
    ∃ a, ∀ i < 4, (a + i) ∈ [1, 2, 3, 4, 5] :=
  ((straight_scores_spec.1 [1, 2, 3, 4, 5]).1).mp (by decide)

/-- C5: parse_keep — absent/empty input keeps nothing (not an error),
all whitespace anywhere is removed before interpretation, any remaining
character outside '1'..'6' invalidates the whole input, and valid input
yields one face value per character in input order. -/
theorem parse_keep_spec :
    _parse_keep_string none = some [] ∧
    _parse_keep_string (some "") = some [] ∧
    _parse_keep_string (some "336") = some [3, 3, 6] ∧
    _parse_keep_string (some " 3 3 6 ") = some [3, 3, 6] ∧
    _parse_keep_string (some "07") = none ∧
    _parse_keep_string (some "3x6") = none ∧
    ∀ s : String,
      _parse_keep_string (some s) =
        (if (s.data.filter (fun c => !c.isWhitespace)).all
            (fun c => decide (c ∈ ['1', '2', '3', '4', '5', '6'])) then
          some ((s.data.filter (fun c => !c.isWhitespace)).map (fun c => c.toNat - '0'.toNat))
        else none) := by
  refine ⟨rfl, rfl, by decide, by decide, by decide, by decide, fun s => ?_⟩
  by_cases hs : s = ""
  · subst hs
    decide
  · simp only [_parse_keep_string, if_neg hs]
    exact parseDigitChars_eq _

/-- C6: the feasibility check of `select_keep` is a multiset-subset
test — it accepts exactly when each requested face's multiplicity does
not exceed its multiplicity in the pool — and is therefore invariant
under reordering of either list; with the spec's examples. -/
theorem is_feasible_subset_spec :
    (∀ requested pool : List Nat,
      (is_feasible requested pool = true ↔
        ∀ v, requested.count v ≤ pool.count v)) ∧
    (∀ requested pool requested2 pool2 : List Nat,
      List.Perm requested requested2 → List.Perm pool pool2 →
      is_feasible requested pool = is_feasible requested2 pool2) ∧
    is_feasible [3, 3, 6] [3, 3, 6, 6, 6] = true ∧
    is_feasible [3, 3, 3] [3, 3, 6, 6, 6] = false := by
  refine ⟨is_feasible_iff, ?_, by decide, by decide⟩
  intro r p r2 p2 hr hp
  rw [Bool.eq_iff_iff, is_feasible_iff, is_feasible_iff]
  constructor
  · intro h v
    rw [← hr.count_eq, ← hp.count_eq]
    exact h v
  · intro h v
    rw [hr.count_eq, hp.count_eq]
    exact h v

/-- C6 witness: reordering both the request and the pool (and thus
moving unrequested pool faces around) does not change feasibility. -/
theorem is_feasible_subset_spec_witness :
    is_feasible [3, 3, 6] [3, 3, 6, 6, 6] = is_feasible [6, 3, 3] [6, 6, 3, 6, 3] :=
  is_feasible_subset_spec.2.1 [3, 3, 6] [3, 3, 6, 6, 6] [6, 3, 3] [6, 6, 3, 6, 3]
    (by decide) (by decide)

/-- C7: the bonus is 35 exactly when the upper subtotal reaches the
inclusive threshold 63 (35 at 63, 0 at 62), the final total is
upper subtotal + bonus + lower subtotal, and each subtotal sums exactly
the committed entries of its section (an unset entry contributes
nothing). -/
theorem scorecard_totals_spec :
    _bonus 63 = 35 ∧ _bonus 62 = 0 ∧
    (∀ u, 63 ≤ u → _bonus u = 35) ∧
    (∀ u, u < 63 → _bonus u = 0) ∧
    (∀ card : Scorecard,
      final_total card =
        _upper_subtotal card + _bonus (_upper_subtotal card) + _lower_subtotal card) ∧
    (∀ card : Scorecard,
      _upper_subtotal card = (UPPER_CATEGORIES.map (fun k => (cardGet card k).getD 0)).sum) ∧
    (∀ card : Scorecard,
      _lower_subtotal card = (LOWER_CATEGORIES.map (fun k => (cardGet card k).getD 0)).sum) := by
  refine ⟨by decide, by decide, fun u hu => ?_, fun u hu => ?_, fun card => rfl,
    fun card => ?_, fun card => ?_⟩
  · unfold _bonus
    rw [if_pos hu]
  · unfold _bonus
    rw [if_neg (by omega)]
  · exact sum_filterMap_getD UPPER_CATEGORIES _
  · exact sum_filterMap_getD LOWER_CATEGORIES _

/-- C7 witness: the bonus branch conditions at concrete subtotals. -/
theorem scorecard_totals_spec_witness : _bonus 100 = 35 :=
  scorecard_totals_spec.2.2.1 100 (by decide)

/-- C8: when the stop offer after roll #2 is declined (the first valid
stop answer is "n", which empty input also defaults to), the same kept
multiset from roll #2 is reapplied — `third_hand` rerolls twice with
the one `kept` — and the round returns right after roll #3: the inputs
remaining after the single stop answer go directly to the category
choice, with no further keep or stop prompt. -/
theorem decline_stop_reapplies_keep
    (card : Scorecard) (ds : List Nat) (ins ins1 ins2 ins3 : List String)
    (kept : List Nat) (choice : String)
    (h1 : select_keep (List.insertionSort (fun a b => a ≤ b) (ds.take 5)) ins =
      some (kept, ins1))
    (h2 : stop_decision ins1 = some (false, ins2))
    (h3 : choose (evaluate (third_hand ds kept).1) (usedKeys card) ins2 =
      some (choice, ins3)) :
    play_round card ds ins =
      some (dictSet card choice
          (some ((List.lookup choice (evaluate (third_hand ds kept).1)).getD 0)),
        (third_hand ds kept).1, (third_hand ds kept).2, ins3) := by
  simp only [third_hand] at h3
  simp [play_round, roll_dice, third_hand, h1, h2, h3]

/-- C8 witness: a concrete declined-stop round; keep {1,2} is parsed
once, reapplied for roll #3, and the round ends with the category
committed from the third hand. -/
theorem decline_stop_reapplies_keep_witness :
    play_round create_empty_scorecard [1, 2, 3, 4, 5, 6, 1, 2, 3, 4, 6, 6, 6, 6, 6]
      ["12", "n", "2"] =
      some (dictSet create_empty_scorecard "2"
          (some ((List.lookup "2"
            (evaluate (third_hand [1, 2, 3, 4, 5, 6, 1, 2, 3, 4, 6, 6, 6, 6, 6] [1, 2]).1)).getD 0)),
        (third_hand [1, 2, 3, 4, 5, 6, 1, 2, 3, 4, 6, 6, 6, 6, 6] [1, 2]).1,
        (third_hand [1, 2, 3, 4, 5, 6, 1, 2, 3, 4, 6, 6, 6, 6, 6] [1, 2]).2, []) :=
  decline_stop_reapplies_keep create_empty_scorecard
    [1, 2, 3, 4, 5, 6, 1, 2, 3, 4, 6, 6, 6, 6, 6]
    ["12", "n", "2"] ["n", "2"] ["2"] [] [1, 2] "2"
    (by decide) (by decide) (by decide)

/-- C9: a round that completes on a scorecard with the canonical key
set commits exactly one previously-unset category: that category ends
committed, every other entry is unchanged, and the key set is
unchanged. -/
theorem play_round_commits_exactly_one
    (card card' : Scorecard) (ds : List Nat) (ins : List String)
    (d rest : List Nat) (ins2 : List String)
    (hkeys : card.map Prod.fst = ALL_CATEGORIES)
    (h : play_round card ds ins = some (card', d, rest, ins2)) :
    ∃ k, k ∈ ALL_CATEGORIES ∧ cardGet card k = none ∧
      (∃ v, cardGet card' k = some v) ∧
      (∀ j, j ≠ k → cardGet card' j = cardGet card j) ∧
      card'.map Prod.fst = card.map Prod.fst := by
  obtain ⟨choice, score, hall, hused, hres⟩ := play_round_some card ds ins _ h
  have hcard2 : card' = dictSet card choice (some score) := hres
  have hnd : (card.map Prod.fst).Nodup := by rw [hkeys]; decide
  have hkmem : choice ∈ card.map Prod.fst := by rw [hkeys]; exact hall
  obtain ⟨o, ho⟩ := mem_keys_exists card choice hkmem
  have hono : o = none := not_mem_usedKeys card choice hused o ho
  subst hono
  refine ⟨choice, hall, ?_, ⟨score, ?_⟩, ?_, ?_⟩
  · unfold cardGet
    rw [lookup_eq_of_mem_nodupkeys choice none card hnd ho]
    rfl
  · unfold cardGet
    rw [hcard2, dictSet_eq_map card choice (some score) hkmem,
      lookup_map_update_self card choice (some score) hnd hkmem]
    rfl
  · intro j hj
    unfold cardGet
    rw [hcard2, dictSet_eq_map card choice (some score) hkmem,
      lookup_map_update_other card choice j (some score) hj]
  · rw [hcard2]
    exact dictSet_map_fst card choice (some score) hkmem

/-- C9 witness: a concrete completed round on the empty scorecard
commits exactly the category "1" (to score 0) and changes nothing
else. -/
theorem play_round_commits_exactly_one_witness :
    ∃ k, k ∈ ALL_CATEGORIES ∧ cardGet create_empty_scorecard k = none ∧
      (∃ v, cardGet (dictSet create_empty_scorecard "1" (some 0)) k = some v) ∧
      (∀ j, j ≠ k → cardGet (dictSet create_empty_scorecard "1" (some 0)) j =
        cardGet create_empty_scorecard j) ∧
      (dictSet create_empty_scorecard "1" (some 0)).map Prod.fst =
        create_empty_scorecard.map Prod.fst :=
  play_round_commits_exactly_one create_empty_scorecard
    (dictSet create_empty_scorecard "1" (some 0))
    [1, 1, 1, 1, 1, 2, 2, 2, 2, 2] ["", "y", "1"] [2, 2, 2, 2, 2] [] []
    (by decide) (by decide)

/-- C10: relations inside one score vector — a scored five_straight
forces a scored four_straight; a nonzero four_of_a_kind forces a
three_of_a_kind equal to it and to the dice sum; and a nonzero
three_of_a_kind equals the chance score. -/
theorem score_vector_relations :
    ∀ dice : List Nat,
      (List.lookup "five_straight" (evaluate dice) = some 40 →
        List.lookup "four_straight" (evaluate dice) = some 30) ∧
      (∀ s, List.lookup "four_of_a_kind" (evaluate dice) = some s → s ≠ 0 →
        List.lookup "three_of_a_kind" (evaluate dice) = some s ∧ s = dice.sum) ∧
      (∀ s, List.lookup "three_of_a_kind" (evaluate dice) = some s → s ≠ 0 →
        List.lookup "chance" (evaluate dice) = some s) := by
  intro dice
  refine ⟨?_, ?_, ?_⟩
  · intro h
    rw [lookup_five_straight] at h
    rw [lookup_four_straight]
    simp only [Option.some.injEq] at h ⊢
    by_cases h5 : has_straight dice 5 = true
    · rw [if_pos (has_straight_mono dice 4 5 (by omega) h5)]
    · rw [if_neg h5] at h
      simp at h
  · intro s hfk hs0
    rw [lookup_four_of_a_kind] at hfk
    simp only [Option.some.injEq] at hfk
    by_cases h4 : (dice.dedup.map fun v => dice.count v).any (fun c => decide (c ≥ 4)) = true
    · rw [if_pos h4] at hfk
      have h3 : (dice.dedup.map fun v => dice.count v).any (fun c => decide (c ≥ 3)) = true := by
        rcases List.any_eq_true.mp h4 with ⟨c, hc, hcge⟩
        refine List.any_eq_true.mpr ⟨c, hc, decide_eq_true ?_⟩
        have hge := of_decide_eq_true hcge
        omega
      constructor
      · rw [lookup_three_of_a_kind, if_pos h3, hfk]
      · exact hfk.symm
    · rw [if_neg h4] at hfk
      exact absurd hfk.symm hs0
  · intro s h3k hs0
    rw [lookup_three_of_a_kind] at h3k
    rw [lookup_chance]
    simp only [Option.some.injEq] at h3k ⊢
    by_cases h3 : (dice.dedup.map fun v => dice.count v).any (fun c => decide (c ≥ 3)) = true
    · rw [if_pos h3] at h3k
      exact h3k
    · rw [if_neg h3] at h3k
      exact absurd h3k.symm hs0

/-- C10 witness: on [2,2,2,2,3] the nonzero four_of_a_kind (11) forces
three_of_a_kind = 11 = the dice sum. -/
theorem score_vector_relations_witness :
    List.lookup "three_of_a_kind" (evaluate [2, 2, 2, 2, 3]) = some 11 ∧
      (11 : Nat) = [2, 2, 2, 2, 3].sum :=
  (score_vector_relations [2, 2, 2, 2, 3]).2.1 11 (by decide) (by decide)

end Yahtzee
